import Mathlib

/-!
Verification development for the template-editor AI agent of this
repository: the tool executors over the in-memory file tree
(site/src/pages/TemplateVersionEditorPage/ai/tools.ts) and the
conversation orchestrator hook useTemplateAgent (the multi-approval
variant, which the design notes designate as the current one).

JavaScript strings are embedded through their character lists: the
split/replace primitives used by executeEditFile are re-implemented
below with the exact ECMAScript semantics (leftmost non-overlapping
split; first-occurrence replace including the dollar substitution
patterns of String.prototype.replace for a string pattern).
-/

namespace Coder

/-- Checks that the first list is an initial segment of the second,
mirroring how String.prototype.split locates a separator occurrence. -/
def leadsWith : List Char → List Char → Bool
  | [], _ => true
  | _ :: _, [] => false
  | a :: p, b :: l => a == b && leadsWith p l

/-- Fuel-indexed worker for the splitter; the fuel only serves to make
the recursion structural (the kernel can then evaluate it), and any
fuel of at least the input length computes the same value. -/
def splitFuel (sep : List Char) : Nat → List Char → List (List Char)
  | _, [] => [[]]
  | 0, l => [l]
  | fuel + 1, c :: rest =>
    if leadsWith sep (c :: rest) then
      [] :: splitFuel sep fuel (rest.drop (sep.length - 1))
    else
      match splitFuel sep fuel rest with
      | [] => [[c]]
      | seg :: segs => (c :: seg) :: segs

/-- Splits a character list on a separator, leftmost-first and
non-overlapping, exactly as JavaScript String.prototype.split does for
a non-empty string separator. -/
def splitAux (sep l : List Char) : List (List Char) :=
  splitFuel sep l.length l

/-- Joins segments back with the separator between them. -/
def intercalateL (sep : List Char) : List (List Char) → List Char
  | [] => []
  | [x] => x
  | x :: y :: rest => x ++ sep ++ intercalateL sep (y :: rest)

def dollarChar : Char := '$'

def ampChar : Char := '&'

def backquoteChar : Char := Char.ofNat 96

def quoteChar : Char := Char.ofNat 39

/-- Expands a replacement string as ECMAScript GetSubstitution does for
a string (non-regexp) pattern: the dollar patterns recognised are the
doubled dollar, dollar-ampersand (the matched text), dollar-backquote
(the text before the match) and dollar-quote (the text after the
match); anything else after a dollar stays literal. -/
def getSubstitution (matched before after : List Char) : List Char → List Char
  | [] => []
  | [c] => [c]
  | c :: d :: rest =>
    if c = dollarChar then
      if d = dollarChar then dollarChar :: getSubstitution matched before after rest
      else if d = ampChar then matched ++ getSubstitution matched before after rest
      else if d = backquoteChar then before ++ getSubstitution matched before after rest
      else if d = quoteChar then after ++ getSubstitution matched before after rest
      else c :: getSubstitution matched before after (d :: rest)
    else c :: getSubstitution matched before after (d :: rest)

/-- Embeds JavaScript String.prototype.replace with a string pattern:
only the first occurrence is replaced and the replacement goes through
the dollar-pattern substitution. -/
def jsReplaceFirst (s pattern replacement : String) : String :=
  match splitAux pattern.data s.data with
  | [] => s
  | [_] => s
  | x :: rest =>
    String.mk (x ++ getSubstitution pattern.data x (intercalateL pattern.data rest) replacement.data
      ++ intercalateL pattern.data rest)

/-- Follows the words of the spec, for comparison with the source: a
literal substring replace of the (first) occurrence, with no
dollar-pattern expansion of the replacement. -/
def specLiteralReplaceFirst (s pattern replacement : String) : String :=
  match splitAux pattern.data s.data with
  | [] => s
  | [_] => s
  | x :: rest => String.mk (x ++ replacement.data ++ intercalateL pattern.data rest)

/-- Occurrence count as computed by executeEditFile:
content.split(oldContent).length - 1. -/
def occurrenceCount (content oldContent : String) : Nat :=
  (splitAux oldContent.data content.data).length - 1

def dropWhileWS : List Char → List Char
  | [] => []
  | c :: rest => if c.isWhitespace then dropWhileWS rest else c :: rest

/-- Embeds String.prototype.trim: strips whitespace from both ends. -/
def jsTrim (s : String) : String :=
  String.mk ((dropWhileWS (dropWhileWS s.data).reverse).reverse)

/-- Modelled from the spec: entries of the external file-tree
collaborator (utils/filetree is not part of the sources here). A path
is bound either to a leaf file with text content or to a directory;
readText fails with a not-a-file condition for directories. -/
inductive FTNode where
  | file (content : String)
  | dir
deriving DecidableEq, Repr

/-- Modelled from the spec: the external file-tree collaborator as a
key-value store from paths to nodes, with copy-on-write snapshots
(every operation returns a new value). -/
abbrev FileTree := List (String × FTNode)

def ftLookup (path : String) : FileTree → Option FTNode
  | [] => none
  | entry :: rest => if entry.1 = path then some entry.2 else ftLookup path rest

/-- Modelled from the spec: exists(path) of the file-tree collaborator. -/
def existsFile (path : String) (tree : FileTree) : Bool :=
  (ftLookup path tree).isSome

/-- Modelled from the spec: readText(path); none models the thrown
not-a-file condition (for directories) or a missing path, which the
tool executors catch. -/
def getFileTextOpt (path : String) (tree : FileTree) : Option String :=
  match ftLookup path tree with
  | some (FTNode.file c) => some c
  | _ => none

def setEntry (path : String) (node : FTNode) : FileTree → FileTree
  | [] => [(path, node)]
  | entry :: rest => if entry.1 = path then (path, node) :: rest else entry :: setEntry path node rest

/-- Modelled from the spec: create(path, value) of the collaborator. -/
def createFile (path : String) (tree : FileTree) (content : String) : FileTree :=
  setEntry path (FTNode.file content) tree

/-- Modelled from the spec: update(path, value) of the collaborator. -/
def updateFile (path : String) (content : String) (tree : FileTree) : FileTree :=
  setEntry path (FTNode.file content) tree

/-- Modelled from the spec: remove(path) of the collaborator. -/
def removeFile (path : String) (tree : FileTree) : FileTree :=
  tree.filter (fun entry => entry.1 != path)

/-- Result record of the mutating tool executors in ai/tools.ts:
{ success, action?, error?, path }. The delete executor never sets
action. -/
structure ToolExecResult where
  success : Bool
  action : Option String
  error : Option String
  path : String
deriving DecidableEq, Repr

structure EditFileArgs where
  path : String
  oldContent : String
  newContent : String
deriving DecidableEq, Repr

/-- Embeds executeEditFile of ai/tools.ts. The getFileTree/setFileTree
callbacks become explicit state passing: the function receives the
current tree and returns the result together with the updated tree. -/
def executeEditFile (tree : FileTree) (args : EditFileArgs) : ToolExecResult × FileTree :=
  let path := args.path
  let oldContent := args.oldContent
  let newContent := args.newContent
  if existsFile path tree = false ∧ oldContent = "" then
    ({ success := true, action := some "created", error := none, path := path },
      createFile path tree newContent)
  else if existsFile path tree = false then
    ({ success := false, action := none,
       error := some ("File not found: " ++ path ++ ". Use listFiles first."), path := path },
      tree)
  else
    match getFileTextOpt path tree with
    | none =>
      ({ success := false, action := none,
         error := some (path ++ " is a directory, not a file."), path := path }, tree)
    | some current =>
      if oldContent = "" then
        let updated := if current.length > 0 then current ++ newContent else newContent
        let action := if current.length > 0 then "appended" else "written"
        ({ success := true, action := some action, error := none, path := path },
          updateFile path updated tree)
      else
        let occurrences := occurrenceCount current oldContent
        if occurrences = 0 then
          ({ success := false, action := none,
             error := some ("oldContent not found in " ++ path ++ ". Read the file first to get exact content."),
             path := path }, tree)
        else if occurrences > 1 then
          ({ success := false, action := none,
             error := some ("oldContent matches " ++ toString occurrences ++ " locations in " ++ path ++
               ". Include more surrounding context to make the match unique."),
             path := path }, tree)
        else
          ({ success := true, action := some "edited", error := none, path := path },
            updateFile path (jsReplaceFirst current oldContent newContent) tree)

/-- Embeds executeDeleteFile of ai/tools.ts. -/
def executeDeleteFile (tree : FileTree) (path : String) : ToolExecResult × FileTree :=
  if existsFile path tree = false then
    ({ success := false, action := none,
       error := some ("File not found: " ++ path), path := path }, tree)
  else
    ({ success := true, action := none, error := none, path := path }, removeFile path tree)

/-- Result of the auto-executed readFile tool. -/
inductive ReadFileResult where
  | content (content : String)
  | error (message : String)
deriving DecidableEq, Repr

/-- Embeds the readFile tool executor of ai/tools.ts. -/
def executeReadFile (tree : FileTree) (path : String) : ReadFileResult :=
  if existsFile path tree = false then
    ReadFileResult.error ("File not found: " ++ path ++ ". Use listFiles to see available files.")
  else
    match getFileTextOpt path tree with
    | some c => ReadFileResult.content c
    | none => ReadFileResult.error (path ++ " is a directory, not a file.")

/-- A JSON argument value as far as the validation in approve observes
it: either a string or some non-string value. A missing key plays the
same role as a non-string value in the typeof checks. -/
inductive ArgVal where
  | str (s : String)
  | nonString
deriving DecidableEq, Repr

/-- The Record of string to unknown carrying the raw tool-call
arguments. -/
abbrev Args := List (String × ArgVal)

def argLookup : Args → String → Option ArgVal
  | [], _ => none
  | a :: rest, key => if a.1 = key then some a.2 else argLookup rest key

/-- Reads one argument when it is a string; none embeds the failing
typeof check of approve. -/
def argString (args : Args) (key : String) : Option String :=
  match argLookup args key with
  | some (ArgVal.str s) => some s
  | _ => none

/-- A tool output value as placed into tool-result messages by
asToolOutput. exec carries a mutating-tool result, errObj carries a
bare error-object (the synthesized rejection), raw stands for any
other JSON payload (outputs of auto-executed tools) kept opaque. -/
inductive ToolOutputVal where
  | exec (r : ToolExecResult)
  | errObj (message : String)
  | raw (value : String)
deriving DecidableEq, Repr

structure ToolResultPart where
  toolCallId : String
  toolName : String
  output : ToolOutputVal
deriving DecidableEq, Repr

inductive AssistantPart where
  | text (text : String)
  | toolCall (toolCallId : String) (toolName : String) (input : Args)
deriving DecidableEq, Repr

/-- Core model-facing messages (the ModelMessage array held in
messagesRef and resubmitted to the model every turn). -/
inductive ModelMessage where
  | user (content : String)
  | assistant (parts : List AssistantPart)
  | tool (results : List ToolResultPart)
deriving DecidableEq, Repr

inductive CallState where
  | pending
  | result
deriving DecidableEq, Repr

structure DisplayToolCall where
  toolCallId : String
  toolName : String
  args : Args
  result : Option ToolOutputVal
  state : CallState
deriving DecidableEq, Repr

inductive DisplayRole where
  | user
  | assistant
deriving DecidableEq, Repr

/-- UI-facing message of the messages state array. -/
structure DisplayMessage where
  id : String
  role : DisplayRole
  content : String
  toolCalls : List DisplayToolCall
deriving DecidableEq, Repr

/-- The approval-required subset of tool names, as the PendingToolCall
type of ai/types.ts restricts them. -/
inductive ApprovalToolName where
  | editFile
  | deleteFile
deriving DecidableEq, Repr

def approvalToolNameStr : ApprovalToolName → String
  | ApprovalToolName.editFile => "editFile"
  | ApprovalToolName.deleteFile => "deleteFile"

/-- PendingToolCall of ai/types.ts: one queued approval entry. -/
structure PendingToolCall where
  toolCallId : String
  toolName : ApprovalToolName
  args : Args
deriving DecidableEq, Repr

/-- AgentStatus of ai/types.ts. -/
inductive AgentStatus where
  | idle
  | streaming
  | awaiting_approval
  | error
deriving DecidableEq, Repr

/-- One tool call as seen in a step summary (StreamToolCall). The
input is kept as an Args record; getToolCallArgs of the source throws
on a non-record input, a case outside this data type. -/
structure StreamToolCall where
  toolCallId : String
  toolName : String
  input : Args
deriving DecidableEq, Repr

structure StepToolResult where
  toolCallId : String
  toolName : String
  output : ToolOutputVal
deriving DecidableEq, Repr

/-- One step of the awaited step summary of a model turn. -/
structure StepResult where
  text : String
  toolCalls : List StreamToolCall
  toolResults : List StepToolResult
deriving DecidableEq, Repr

/-- The whole mutable state of one useTemplateAgent instance. messages,
status and pendingApprovals are the React state, messageCounter,
messagesRef and abortRef the refs (abortRef is tracked as whether a
handle is present), fileTree the external store reached through
getFileTree/setFileTree. streamStarts and execLog are ghost
instrumentation: streamStarts counts the runStream invocations and
execLog records the toolCallIds whose registry executor actually ran. -/
structure AgentState where
  messages : List DisplayMessage
  status : AgentStatus
  pendingApprovals : List PendingToolCall
  messageCounter : Nat
  messagesRef : List ModelMessage
  abortRef : Bool
  fileTree : FileTree
  streamStarts : Nat
  execLog : List String
deriving DecidableEq, Repr

def initialAgentState : AgentState :=
  { messages := [], status := AgentStatus.idle, pendingApprovals := [], messageCounter := 0,
    messagesRef := [], abortRef := false, fileTree := [], streamStarts := 0, execLog := [] }

def mkMessageId (n : Nat) : String := "msg-" ++ toString n

/-- Synchronous prefix of runStream (up to its first await): abort any
previous handle, install a fresh one and publish the streaming
status. The ghost counter records the invocation. -/
def startStream (s : AgentState) : AgentState :=
  { s with abortRef := true, status := AgentStatus.streaming, streamStarts := s.streamStarts + 1 }

/-- Embeds send of useTemplateAgent (part with the multi-approval
queue): rejected while streaming or awaiting approval, while a handle
is live, or when the text trims to empty; otherwise the user message
is appended to both histories and a stream turn starts. -/
def send (text : String) (s : AgentState) : AgentState :=
  if s.status = AgentStatus.streaming ∨ s.status = AgentStatus.awaiting_approval then s
  else if s.abortRef = true then s
  else
    let trimmed := jsTrim text
    if trimmed = "" then s
    else
      startStream
        { s with
          messagesRef := s.messagesRef ++ [ModelMessage.user trimmed],
          messageCounter := s.messageCounter + 1,
          messages := s.messages ++
            [{ id := mkMessageId (s.messageCounter + 1), role := DisplayRole.user,
               content := trimmed, toolCalls := [] }] }

def resolveDisplayToolCall (id : String) (res : ToolOutputVal) (tc : DisplayToolCall) : DisplayToolCall :=
  if tc.toolCallId = id then { tc with result := some res, state := CallState.result } else tc

/-- Embeds executePendingTool: marks the matching display tool call
resolved and appends the tool-result message to the core history. -/
def executePendingTool (pending : PendingToolCall) (resultValue : ToolOutputVal) (s : AgentState) : AgentState :=
  { s with
    messages := s.messages.map (fun m =>
      { m with toolCalls := m.toolCalls.map (resolveDisplayToolCall pending.toolCallId resultValue) }),
    messagesRef := s.messagesRef ++
      [ModelMessage.tool [{ toolCallId := pending.toolCallId,
                            toolName := approvalToolNameStr pending.toolName,
                            output := resultValue }]] }

/-- The typed failure result approve produces when the re-validation
of the head arguments fails, verbatim from the source. -/
def invalidArgsResult (p : PendingToolCall) : ToolExecResult :=
  match p.toolName with
  | ApprovalToolName.editFile =>
    { success := false, action := none,
      error := some "editFile arguments are invalid. path, oldContent, and newContent must all be strings.",
      path := (argString p.args "path").getD "" }
  | ApprovalToolName.deleteFile =>
    { success := false, action := none,
      error := some "deleteFile arguments are invalid. path must be a non-empty string.",
      path := (argString p.args "path").getD "" }

/-- The string/shape re-validation approve performs on the head
arguments before invoking an executor. -/
def validApprovalArgs (p : PendingToolCall) : Bool :=
  match p.toolName with
  | ApprovalToolName.editFile =>
    (argString p.args "path").isSome && (argString p.args "oldContent").isSome &&
      (argString p.args "newContent").isSome
  | ApprovalToolName.deleteFile =>
    match argString p.args "path" with
    | some path => path.length != 0
    | none => false

/-- Computation of the tool result in approve for the head pending
call: re-validate, then either run the executor (third component true)
or produce the typed failure without running it (third component
false). The onFileEdited/onFileDeleted UI callbacks are outside the
modelled state. -/
def approveHead (current : PendingToolCall) (tree : FileTree) : ToolExecResult × FileTree × Bool :=
  match current.toolName with
  | ApprovalToolName.editFile =>
    match argString current.args "path", argString current.args "oldContent",
          argString current.args "newContent" with
    | some path, some oldContent, some newContent =>
      let r := executeEditFile tree { path := path, oldContent := oldContent, newContent := newContent }
      (r.1, r.2, true)
    | _, _, _ => (invalidArgsResult current, tree, false)
  | ApprovalToolName.deleteFile =>
    match argString current.args "path" with
    | some path =>
      if path.length = 0 then (invalidArgsResult current, tree, false)
      else
        let r := executeDeleteFile tree path
        (r.1, r.2, true)
    | none => (invalidArgsResult current, tree, false)

/-- Embeds approve of useTemplateAgent (multi-approval variant): works
on the queue head only, appends the result, then either keeps the
remaining queue or, once drained, resumes the stream. -/
def approve (s : AgentState) : AgentState :=
  match s.pendingApprovals with
  | [] => s
  | current :: remaining =>
    let headRun := approveHead current s.fileTree
    let s1 : AgentState :=
      { s with fileTree := headRun.2.1,
               execLog := if headRun.2.2 then s.execLog ++ [current.toolCallId] else s.execLog }
    let s2 := executePendingTool current (ToolOutputVal.exec headRun.1) s1
    if remaining = [] then startStream { s2 with pendingApprovals := [] }
    else { s2 with pendingApprovals := remaining }

def rejectionMessage : String := "User rejected this action."

/-- Embeds reject of useTemplateAgent (multi-approval variant): the
synthesized error result is appended for the head without touching any
executor, then the queue advances or the stream resumes. -/
def reject (s : AgentState) : AgentState :=
  match s.pendingApprovals with
  | [] => s
  | current :: remaining =>
    let s2 := executePendingTool current (ToolOutputVal.errObj rejectionMessage) s
    if remaining = [] then startStream { s2 with pendingApprovals := [] }
    else { s2 with pendingApprovals := remaining }

/-- Embeds stop: abort the in-flight handle, drop it and publish
idle. -/
def stop (s : AgentState) : AgentState :=
  { s with abortRef := false, status := AgentStatus.idle }

/-- Embeds reset: abort, drop the handle, clear both histories and the
queue, publish idle. The message counter ref is not reset. -/
def reset (s : AgentState) : AgentState :=
  { s with abortRef := false, messagesRef := [], messages := [], pendingApprovals := [],
           status := AgentStatus.idle }

/-- Epilogue of a cancelled runStream (the aborted branch after the
event loop): publish idle and drop the handle, reconciling nothing. -/
def observeAbort (s : AgentState) : AgentState :=
  { s with status := AgentStatus.idle, abortRef := false }

/-- The derived pendingApproval value exposed to the UI: the queue
head or null. -/
def pendingApprovalView (s : AgentState) : Option PendingToolCall :=
  s.pendingApprovals.head?

/-- Messages contributed by one step to the rebuilt core history: one
assistant message when the step has text or tool calls, then one tool
message when it has results. -/
def stepMessages (step : StepResult) : List ModelMessage :=
  let callParts := step.toolCalls.map (fun tc => AssistantPart.toolCall tc.toolCallId tc.toolName tc.input)
  let assistantParts := (if step.text = "" then [] else [AssistantPart.text step.text]) ++ callParts
  (if assistantParts = [] then [] else [ModelMessage.assistant assistantParts]) ++
    (if step.toolResults = [] then []
     else [ModelMessage.tool (step.toolResults.map (fun tr =>
       { toolCallId := tr.toolCallId, toolName := tr.toolName, output := tr.output }))])

def reconcileSteps : List StepResult → List ModelMessage
  | [] => []
  | st :: rest => stepMessages st ++ reconcileSteps rest

def parseApprovalName (name : String) : Option ApprovalToolName :=
  if name = "editFile" then some ApprovalToolName.editFile
  else if name = "deleteFile" then some ApprovalToolName.deleteFile
  else none

/-- Embeds getPendingToolCalls: from the final step only, every tool
call whose id has no result in that step and whose name is
approval-required, in emission order. -/
def getPendingToolCalls (steps : List StepResult) : List PendingToolCall :=
  match steps.getLast? with
  | none => []
  | some lastStep =>
    let resultCallIds := lastStep.toolResults.map (fun r => r.toolCallId)
    lastStep.toolCalls.filterMap (fun tc =>
      if resultCallIds.contains tc.toolCallId then none
      else
        match parseApprovalName tc.toolName with
        | some n => some { toolCallId := tc.toolCallId, toolName := n, args := tc.input }
        | none => none)

/-- Epilogue of a completed (non-aborted) runStream: rebuild the core
history from the step summary, then either queue the pending approvals
and await, or go idle. -/
def finishStream (steps : List StepResult) (s : AgentState) : AgentState :=
  let nextMessages := s.messagesRef ++ reconcileSteps steps
  let nextPending := getPendingToolCalls steps
  if nextPending = [] then
    { s with messagesRef := nextMessages, pendingApprovals := [],
             status := AgentStatus.idle, abortRef := false }
  else
    { s with messagesRef := nextMessages, pendingApprovals := nextPending,
             status := AgentStatus.awaiting_approval, abortRef := false }

/-! Concrete fixtures used to evaluate the embedded operations on
small inputs. -/

def sampleArgs1 : Args :=
  [("path", ArgVal.str "a.tf"), ("oldContent", ArgVal.str ""), ("newContent", ArgVal.str "x")]

def sampleArgs2 : Args :=
  [("path", ArgVal.str "b.tf"), ("oldContent", ArgVal.str ""), ("newContent", ArgVal.str "y")]

def sampleCall1 : StreamToolCall :=
  { toolCallId := "call-1", toolName := "editFile", input := sampleArgs1 }

def sampleCall2 : StreamToolCall :=
  { toolCallId := "call-2", toolName := "editFile", input := sampleArgs2 }

def sampleStep : StepResult :=
  { text := "editing", toolCalls := [sampleCall1, sampleCall2], toolResults := [] }

def samplePending1 : PendingToolCall :=
  { toolCallId := "call-1", toolName := ApprovalToolName.editFile, args := sampleArgs1 }

def samplePending2 : PendingToolCall :=
  { toolCallId := "call-2", toolName := ApprovalToolName.editFile, args := sampleArgs2 }

def invalidPending : PendingToolCall :=
  { toolCallId := "call-bad", toolName := ApprovalToolName.editFile,
    args := [("path", ArgVal.nonString)] }

def queuedState (q : List PendingToolCall) : AgentState :=
  { initialAgentState with pendingApprovals := q, status := AgentStatus.awaiting_approval }

def errorState : AgentState :=
  { initialAgentState with status := AgentStatus.error }

def streamingState : AgentState :=
  { initialAgentState with
    status := AgentStatus.streaming, abortRef := true,
    messagesRef := [ModelMessage.user "hi"] }

def c2Tree : FileTree := [("main.tf", FTNode.file "ab")]

def c2Args : EditFileArgs := { path := "main.tf", oldContent := "a", newContent := "$&x" }

def c2WitnessTree : FileTree := [("main.tf", FTNode.file "hello world")]

/-! Helper lemmas about the split and substitution primitives. -/

theorem leadsWith_drop (p : List Char) : ∀ l : List Char, leadsWith p l = true → p ++ l.drop p.length = l := by
  induction p with
  | nil => intro l _; simp
  | cons a p ih =>
    intro l h
    cases l with
    | nil => simp [leadsWith] at h
    | cons b l =>
      simp only [leadsWith, Bool.and_eq_true, beq_iff_eq] at h
      obtain ⟨hab, hpl⟩ := h
      subst hab
      simp only [List.length_cons, List.drop_succ_cons, List.cons_append, List.cons.injEq, true_and]
      exact ih l hpl

theorem leadsWith_append (p t : List Char) : leadsWith p (p ++ t) = true := by
  induction p with
  | nil => rfl
  | cons a p ih => simp [leadsWith, ih]

theorem splitFuel_irrel (sep : List Char) :
    ∀ fuel1 fuel2 l, l.length ≤ fuel1 → l.length ≤ fuel2 →
      splitFuel sep fuel1 l = splitFuel sep fuel2 l := by
  intro fuel1
  induction fuel1 with
  | zero =>
    intro fuel2 l h1 _
    have hnil : l = [] := List.length_eq_zero.mp (Nat.le_zero.mp h1)
    subst hnil
    cases fuel2 <;> rfl
  | succ f1 ih =>
    intro fuel2 l h1 h2
    cases l with
    | nil => cases fuel2 <;> rfl
    | cons c rest =>
      cases fuel2 with
      | zero => simp at h2
      | succ f2 =>
        have hr1 : rest.length ≤ f1 := by simpa using h1
        have hr2 : rest.length ≤ f2 := by simpa using h2
        have hd1 : (rest.drop (sep.length - 1)).length ≤ f1 := by
          have := List.length_drop (sep.length - 1) rest
          omega
        have hd2 : (rest.drop (sep.length - 1)).length ≤ f2 := by
          have := List.length_drop (sep.length - 1) rest
          omega
        simp only [splitFuel]
        by_cases h : leadsWith sep (c :: rest) = true
        · simp only [h, if_true]
          rw [ih f2 _ hd1 hd2]
        · simp only [h, Bool.false_eq_true, if_false]
          rw [ih f2 rest hr1 hr2]

theorem splitAux_nil (sep : List Char) : splitAux sep [] = [[]] := rfl

theorem splitAux_cons_pos (sep : List Char) (c : Char) (rest : List Char)
    (h : leadsWith sep (c :: rest) = true) :
    splitAux sep (c :: rest) = [] :: splitAux sep (rest.drop (sep.length - 1)) := by
  show splitFuel sep (c :: rest).length (c :: rest) = [] :: splitAux sep (rest.drop (sep.length - 1))
  simp only [List.length_cons, splitFuel, h, if_true]
  have hd : (rest.drop (sep.length - 1)).length ≤ rest.length := by
    have := List.length_drop (sep.length - 1) rest
    omega
  rw [splitFuel_irrel sep rest.length (rest.drop (sep.length - 1)).length _ hd (Nat.le_refl _)]
  rfl

theorem splitAux_cons_neg (sep : List Char) (c : Char) (rest seg : List Char)
    (segs : List (List Char)) (h : ¬ leadsWith sep (c :: rest) = true)
    (hsp : splitAux sep rest = seg :: segs) :
    splitAux sep (c :: rest) = (c :: seg) :: segs := by
  show splitFuel sep (c :: rest).length (c :: rest) = (c :: seg) :: segs
  simp only [List.length_cons, splitFuel, h, Bool.false_eq_true, if_false]
  rw [show splitFuel sep rest.length rest = seg :: segs from hsp]

theorem splitAux_cons_neg_nil (sep : List Char) (c : Char) (rest : List Char)
    (h : ¬ leadsWith sep (c :: rest) = true) (hsp : splitAux sep rest = []) :
    splitAux sep (c :: rest) = [[c]] := by
  show splitFuel sep (c :: rest).length (c :: rest) = [[c]]
  simp only [List.length_cons, splitFuel, h, Bool.false_eq_true, if_false]
  rw [show splitFuel sep rest.length rest = [] from hsp]

theorem splitAux_ne_nil (sep : List Char) (l : List Char) : splitAux sep l ≠ [] := by
  cases l with
  | nil => simp [splitAux_nil]
  | cons c rest =>
    by_cases h : leadsWith sep (c :: rest) = true
    · simp [splitAux_cons_pos sep c rest h]
    · cases hsp : splitAux sep rest with
      | nil => simp [splitAux_cons_neg_nil sep c rest h hsp]
      | cons seg segs => simp [splitAux_cons_neg sep c rest seg segs h hsp]

theorem intercalateL_cons_of_ne_nil (sep x : List Char) (rest : List (List Char)) (h : rest ≠ []) :
    intercalateL sep (x :: rest) = x ++ sep ++ intercalateL sep rest := by
  cases rest with
  | nil => exact absurd rfl h
  | cons y ys => rfl

theorem intercalateL_cons_head (sep : List Char) (c : Char) (seg : List Char) (segs : List (List Char)) :
    intercalateL sep ((c :: seg) :: segs) = c :: intercalateL sep (seg :: segs) := by
  cases segs with
  | nil => rfl
  | cons y ys => rfl

theorem splitAux_reconstruct_aux (sep : List Char) (hsep : sep ≠ []) :
    ∀ n, ∀ l : List Char, l.length ≤ n → intercalateL sep (splitAux sep l) = l := by
  intro n
  induction n with
  | zero =>
    intro l hl
    have hnil : l = [] := List.length_eq_zero.mp (Nat.le_zero.mp hl)
    subst hnil
    rw [splitAux_nil]
    rfl
  | succ n ih =>
    intro l hl
    cases l with
    | nil => rw [splitAux_nil]; rfl
    | cons c rest =>
      by_cases h : leadsWith sep (c :: rest) = true
      · rw [splitAux_cons_pos sep c rest h]
        obtain ⟨seg, segs, hsp⟩ : ∃ seg segs, splitAux sep (rest.drop (sep.length - 1)) = seg :: segs := by
          cases hx : splitAux sep (rest.drop (sep.length - 1)) with
          | nil => exact absurd hx (splitAux_ne_nil sep _)
          | cons seg segs => exact ⟨seg, segs, rfl⟩
        rw [hsp, intercalateL_cons_of_ne_nil sep [] (seg :: segs) (by simp)]
        have hdropped : intercalateL sep (splitAux sep (rest.drop (sep.length - 1))) =
            rest.drop (sep.length - 1) := by
          apply ih
          have hd := List.length_drop (sep.length - 1) rest
          have hr : rest.length ≤ n := by
            have := List.length_cons c rest ▸ hl
            omega
          omega
        rw [hsp] at hdropped
        rw [hdropped]
        have hjoin := leadsWith_drop sep (c :: rest) h
        obtain ⟨k, hk⟩ : ∃ k, sep.length = k + 1 := by
          cases hs : sep with
          | nil => exact absurd hs hsep
          | cons a t => exact ⟨t.length, by simp⟩
        rw [hk] at hjoin
        simp only [List.drop_succ_cons] at hjoin
        have hk1 : sep.length - 1 = k := by omega
        rw [hk1]
        simpa using hjoin
      · obtain ⟨seg, segs, hsp⟩ : ∃ seg segs, splitAux sep rest = seg :: segs := by
          cases hx : splitAux sep rest with
          | nil => exact absurd hx (splitAux_ne_nil sep _)
          | cons seg segs => exact ⟨seg, segs, rfl⟩
        rw [splitAux_cons_neg sep c rest seg segs h hsp, intercalateL_cons_head]
        have hr : intercalateL sep (splitAux sep rest) = rest := by
          apply ih
          have := List.length_cons c rest ▸ hl
          omega
        rw [hsp] at hr
        rw [hr]

theorem splitAux_reconstruct (sep : List Char) (hsep : sep ≠ []) (l : List Char) :
    intercalateL sep (splitAux sep l) = l :=
  splitAux_reconstruct_aux sep hsep l.length l (Nat.le_refl _)

theorem splitAux_length_ge_two (sep : List Char) (hsep : sep ≠ []) :
    ∀ b a l : List Char, l = b ++ sep ++ a → 2 ≤ (splitAux sep l).length := by
  intro b
  induction b with
  | nil =>
    intro a l hl
    obtain ⟨s0, stail, hs⟩ : ∃ s0 stail, sep = s0 :: stail := by
      cases hx : sep with
      | nil => exact absurd hx hsep
      | cons s0 stail => exact ⟨s0, stail, rfl⟩
    subst hs
    simp only [List.nil_append] at hl
    subst hl
    have hw : leadsWith (s0 :: stail) ((s0 :: stail) ++ a) = true := leadsWith_append _ _
    simp only [List.cons_append] at hw ⊢
    rw [splitAux_cons_pos _ _ _ hw]
    simp only [List.length_cons]
    exact Nat.succ_le_succ (List.length_pos.mpr (splitAux_ne_nil _ _))
  | cons x b ih =>
    intro a l hl
    subst hl
    simp only [List.cons_append]
    by_cases h : leadsWith sep (x :: (b ++ sep ++ a)) = true
    · rw [splitAux_cons_pos _ _ _ h]
      simp only [List.length_cons]
      exact Nat.succ_le_succ (List.length_pos.mpr (splitAux_ne_nil _ _))
    · have h2 := ih a (b ++ sep ++ a) rfl
      cases hsp : splitAux sep (b ++ sep ++ a) with
      | nil => exact absurd hsp (splitAux_ne_nil sep _)
      | cons seg segs =>
        rw [splitAux_cons_neg _ _ _ _ _ h hsp]
        rw [hsp] at h2
        simp only [List.length_cons] at h2 ⊢
        omega

theorem occurrence_of_count_pos (sep l : List Char) (hsep : sep ≠ [])
    (h : 2 ≤ (splitAux sep l).length) : ∃ b a, l = b ++ sep ++ a := by
  cases hsp : splitAux sep l with
  | nil => exact absurd hsp (splitAux_ne_nil sep _)
  | cons x rest =>
    cases rest with
    | nil => rw [hsp] at h; simp at h
    | cons y ys =>
      refine ⟨x, intercalateL sep (y :: ys), ?_⟩
      have hrec := splitAux_reconstruct sep hsep l
      rw [hsp, intercalateL_cons_of_ne_nil sep x (y :: ys) (by simp)] at hrec
      simpa [List.append_assoc] using hrec.symm

theorem count_pos_of_occurrence (sep l : List Char) (hsep : sep ≠ [])
    (h : ∃ b a, l = b ++ sep ++ a) : 2 ≤ (splitAux sep l).length := by
  obtain ⟨b, a, hl⟩ := h
  exact splitAux_length_ge_two sep hsep b a l hl

theorem getSubstitution_no_dollar (matched before after : List Char) :
    ∀ repl : List Char, (∀ c ∈ repl, c ≠ dollarChar) →
      getSubstitution matched before after repl = repl := by
  intro repl
  induction repl with
  | nil => intro _; rfl
  | cons c rest ih =>
    intro h
    cases rest with
    | nil => rfl
    | cons d rest2 =>
      have hc : c ≠ dollarChar := h c (by simp)
      have hstep : getSubstitution matched before after (c :: d :: rest2) =
          c :: getSubstitution matched before after (d :: rest2) := by
        rw [getSubstitution]
        simp [hc]
      rw [hstep, ih (fun e he => h e (by simp [he]))]

theorem string_data_nil_iff (s : String) : s.data = [] ↔ s = "" := by
  constructor
  · intro h
    apply String.ext
    simpa using h
  · intro h
    subst h
    rfl

theorem string_length_pos_iff (s : String) : 0 < s.length ↔ s ≠ "" := by
  have hlen : s.length = s.data.length := rfl
  rw [hlen, List.length_pos]
  constructor
  · intro h hs; exact h ((string_data_nil_iff s).mpr hs)
  · intro h hd; exact h ((string_data_nil_iff s).mp hd)

/-! Helper lemmas about the file-tree store. -/

theorem ftLookup_setEntry_self (path : String) (node : FTNode) (tree : FileTree) :
    ftLookup path (setEntry path node tree) = some node := by
  induction tree with
  | nil => simp [setEntry, ftLookup]
  | cons e rest ih =>
    by_cases h : e.1 = path
    · simp [setEntry, ftLookup, h]
    · simp [setEntry, ftLookup, h, ih]

theorem ftLookup_removeFile_self (path : String) (tree : FileTree) :
    ftLookup path (removeFile path tree) = none := by
  induction tree with
  | nil => rfl
  | cons e rest ih =>
    by_cases h : e.1 = path
    · simpa [removeFile, List.filter_cons, h] using ih
    · simpa [removeFile, List.filter_cons, h, ftLookup] using ih

/-! Helper lemmas about the orchestrator transitions. -/

theorem finishStream_fields (steps : List StepResult) (s : AgentState) :
    (finishStream steps s).pendingApprovals = getPendingToolCalls steps ∧
    (finishStream steps s).messagesRef = s.messagesRef ++ reconcileSteps steps ∧
    (finishStream steps s).status =
      (if getPendingToolCalls steps = [] then AgentStatus.idle else AgentStatus.awaiting_approval) ∧
    (finishStream steps s).streamStarts = s.streamStarts ∧
    (finishStream steps s).execLog = s.execLog ∧
    (finishStream steps s).abortRef = false ∧
    (finishStream steps s).fileTree = s.fileTree ∧
    (finishStream steps s).messages = s.messages ∧
    (finishStream steps s).messageCounter = s.messageCounter := by
  by_cases h : getPendingToolCalls steps = [] <;> simp [finishStream, h]

theorem approve_fields (s : AgentState) (current : PendingToolCall) (remaining : List PendingToolCall)
    (h : s.pendingApprovals = current :: remaining) :
    (approve s).fileTree = (approveHead current s.fileTree).2.1 ∧
    (approve s).execLog =
      (if (approveHead current s.fileTree).2.2 then s.execLog ++ [current.toolCallId] else s.execLog) ∧
    (approve s).messagesRef = s.messagesRef ++
      [ModelMessage.tool [{ toolCallId := current.toolCallId,
                            toolName := approvalToolNameStr current.toolName,
                            output := ToolOutputVal.exec (approveHead current s.fileTree).1 }]] ∧
    (approve s).pendingApprovals = (if remaining = [] then [] else remaining) ∧
    (approve s).streamStarts =
      (if remaining = [] then s.streamStarts + 1 else s.streamStarts) ∧
    (approve s).status = (if remaining = [] then AgentStatus.streaming else s.status) ∧
    (approve s).messageCounter = s.messageCounter := by
  by_cases hrem : remaining = [] <;>
    simp [approve, h, hrem, executePendingTool, startStream]

theorem reject_fields (s : AgentState) (current : PendingToolCall) (remaining : List PendingToolCall)
    (h : s.pendingApprovals = current :: remaining) :
    (reject s).fileTree = s.fileTree ∧
    (reject s).execLog = s.execLog ∧
    (reject s).messagesRef = s.messagesRef ++
      [ModelMessage.tool [{ toolCallId := current.toolCallId,
                            toolName := approvalToolNameStr current.toolName,
                            output := ToolOutputVal.errObj rejectionMessage }]] ∧
    (reject s).pendingApprovals = (if remaining = [] then [] else remaining) ∧
    (reject s).streamStarts =
      (if remaining = [] then s.streamStarts + 1 else s.streamStarts) := by
  by_cases hrem : remaining = [] <;>
    simp [reject, h, hrem, executePendingTool, startStream]

theorem approveHead_of_valid (p : PendingToolCall) (tree : FileTree)
    (h : validApprovalArgs p = true) :
    ∃ r tree2, approveHead p tree = (r, tree2, true) := by
  obtain ⟨id, name, args⟩ := p
  cases name with
  | editFile =>
    simp only [validApprovalArgs, Bool.and_eq_true, Option.isSome_iff_exists] at h
    obtain ⟨⟨⟨path, hp⟩, ⟨oldc, ho⟩⟩, ⟨newc, hn⟩⟩ := h
    refine ⟨(executeEditFile tree { path := path, oldContent := oldc, newContent := newc }).1,
      (executeEditFile tree { path := path, oldContent := oldc, newContent := newc }).2, ?_⟩
    simp [approveHead, hp, ho, hn]
  | deleteFile =>
    simp only [validApprovalArgs] at h
    cases hp : argString args "path" with
    | none => rw [hp] at h; simp at h
    | some path =>
      rw [hp] at h
      have hlen : ¬ path.length = 0 := by simpa using h
      refine ⟨(executeDeleteFile tree path).1, (executeDeleteFile tree path).2, ?_⟩
      simp [approveHead, hp, hlen]

theorem approveHead_of_invalid (p : PendingToolCall) (tree : FileTree)
    (h : validApprovalArgs p = false) :
    approveHead p tree = (invalidArgsResult p, tree, false) := by
  obtain ⟨id, name, args⟩ := p
  cases name with
  | editFile =>
    simp only [validApprovalArgs, Bool.and_eq_false_iff] at h
    cases hp : argString args "path" with
    | none => simp [approveHead, hp]
    | some path =>
      cases ho : argString args "oldContent" with
      | none => simp [approveHead, hp, ho]
      | some oldc =>
        cases hn : argString args "newContent" with
        | none => simp [approveHead, hp, ho, hn]
        | some newc => rw [hp, ho, hn] at h; simp at h
  | deleteFile =>
    simp only [validApprovalArgs] at h
    cases hp : argString args "path" with
    | none => simp [approveHead, hp]
    | some path =>
      rw [hp] at h
      have hlen : path.length = 0 := by simpa using h
      simp [approveHead, hp, hlen]

theorem executeEditFile_existing (tree : FileTree) (path old new current : String)
    (hfile : ftLookup path tree = some (FTNode.file current)) (hold : old ≠ "") :
    executeEditFile tree { path := path, oldContent := old, newContent := new } =
      (if occurrenceCount current old = 0 then
        ({ success := false, action := none,
           error := some ("oldContent not found in " ++ path ++ ". Read the file first to get exact content."),
           path := path }, tree)
      else if occurrenceCount current old > 1 then
        ({ success := false, action := none,
           error := some ("oldContent matches " ++ toString (occurrenceCount current old) ++
             " locations in " ++ path ++ ". Include more surrounding context to make the match unique."),
           path := path }, tree)
      else
        ({ success := true, action := some "edited", error := none, path := path },
          updateFile path (jsReplaceFirst current old new) tree)) := by
  have hex : existsFile path tree = true := by simp [existsFile, hfile]
  have hget : getFileTextOpt path tree = some current := by simp [getFileTextOpt, hfile]
  simp [executeEditFile, hex, hget, hold]

theorem old_data_ne_nil (old : String) (hold : old ≠ "") : old.data ≠ [] := by
  intro hd
  exact hold ((string_data_nil_iff old).mp hd)

theorem occurrenceCount_zero_iff (current old : String) (hold : old ≠ "") :
    occurrenceCount current old = 0 ↔ ¬ ∃ b a, current.data = b ++ old.data ++ a := by
  have hsep := old_data_ne_nil old hold
  have hne := splitAux_ne_nil old.data current.data
  have hpos : 0 < (splitAux old.data current.data).length := List.length_pos.mpr hne
  constructor
  · intro h hex
    have h2 := count_pos_of_occurrence old.data current.data hsep hex
    unfold occurrenceCount at h
    omega
  · intro hn
    by_contra h0
    have h2 : 2 ≤ (splitAux old.data current.data).length := by
      unfold occurrenceCount at h0
      omega
    exact hn (occurrence_of_count_pos old.data current.data hsep h2)

/-- C2 counterexample: the claim predicts a literal substring
replacement of the unique occurrence, but the source uses
String.prototype.replace, whose replacement argument is subject to
dollar-pattern substitution. On the file content "ab" with oldContent
"a" (exactly one occurrence by any reading) and newContent containing
a dollar-ampersand pattern, the code stores "axb" while a literal
replacement would store the distinct content given by
specLiteralReplaceFirst. -/
theorem c2_counterexample :
    occurrenceCount "ab" "a" = 1 ∧
    (executeEditFile c2Tree c2Args).1 =
      { success := true, action := some "edited", error := none, path := "main.tf" } ∧
    getFileTextOpt "main.tf" (executeEditFile c2Tree c2Args).2 = some "axb" ∧
    specLiteralReplaceFirst "ab" "a" "$&x" = "$&xb" ∧
    getFileTextOpt "main.tf" (executeEditFile c2Tree c2Args).2 ≠
      some (specLiteralReplaceFirst "ab" "a" "$&x") := by
  decide

/-- C2 (amended): for executeEditFile with non-empty oldContent on a
path bound to a file: when the content contains no occurrence of
oldContent the result is a failure and the tree is unchanged; when the
split-based occurrence count (leftmost non-overlapping matches, as
String.prototype.split counts them) exceeds one the result is a
failure and the tree is unchanged; when that count is exactly one, the
unique occurrence is replaced — the surrounding prefix and suffix are
preserved and newContent is inserted after ECMAScript dollar-pattern
expansion, which is literal newContent whenever newContent contains no
dollar character — and the result is success with action edited. -/
theorem c2_edit_unique_occurrence (tree : FileTree) (path old new current : String)
    (hfile : ftLookup path tree = some (FTNode.file current)) (hold : old ≠ "") :
    ((¬ ∃ b a, current.data = b ++ old.data ++ a) →
      executeEditFile tree { path := path, oldContent := old, newContent := new } =
        ({ success := false, action := none,
           error := some ("oldContent not found in " ++ path ++ ". Read the file first to get exact content."),
           path := path }, tree)) ∧
    (occurrenceCount current old > 1 →
      executeEditFile tree { path := path, oldContent := old, newContent := new } =
        ({ success := false, action := none,
           error := some ("oldContent matches " ++ toString (occurrenceCount current old) ++
             " locations in " ++ path ++ ". Include more surrounding context to make the match unique."),
           path := path }, tree)) ∧
    (occurrenceCount current old = 1 →
      (executeEditFile tree { path := path, oldContent := old, newContent := new }).1 =
        { success := true, action := some "edited", error := none, path := path } ∧
      ∃ b a, current.data = b ++ old.data ++ a ∧
        ftLookup path (executeEditFile tree { path := path, oldContent := old, newContent := new }).2 =
          some (FTNode.file (String.mk (b ++ getSubstitution old.data b a new.data ++ a))) ∧
        ((∀ c ∈ new.data, c ≠ dollarChar) →
          String.mk (b ++ getSubstitution old.data b a new.data ++ a) =
            String.mk (b ++ new.data ++ a))) := by
  have hcases := executeEditFile_existing tree path old new current hfile hold
  refine ⟨?_, ?_, ?_⟩
  · intro hno
    have h0 : occurrenceCount current old = 0 := (occurrenceCount_zero_iff current old hold).mpr hno
    rw [hcases, if_pos h0]
  · intro hgt
    have h0 : ¬ occurrenceCount current old = 0 := by omega
    rw [hcases, if_neg h0, if_pos hgt]
  · intro h1
    have h0 : ¬ occurrenceCount current old = 0 := by omega
    have hgt : ¬ occurrenceCount current old > 1 := by omega
    rw [hcases, if_neg h0, if_neg hgt]
    refine ⟨rfl, ?_⟩
    have hne := splitAux_ne_nil old.data current.data
    have hlen2 : (splitAux old.data current.data).length = 2 := by
      have hpos : 0 < (splitAux old.data current.data).length := List.length_pos.mpr hne
      unfold occurrenceCount at h1
      omega
    obtain ⟨x, y, hsp⟩ := List.length_eq_two.mp hlen2
    have hrec := splitAux_reconstruct old.data (old_data_ne_nil old hold) current.data
    rw [hsp] at hrec
    have hdecomp : current.data = x ++ old.data ++ y := by
      rw [intercalateL_cons_of_ne_nil old.data x [y] (by simp)] at hrec
      simpa [List.append_assoc] using hrec.symm
    refine ⟨x, y, hdecomp, ?_, ?_⟩
    · have hrepl : jsReplaceFirst current old new =
          String.mk (x ++ getSubstitution old.data x y new.data ++ y) := by
        simp [jsReplaceFirst, hsp, intercalateL]
      simp only
      rw [hrepl]
      exact ftLookup_setEntry_self path _ tree
    · intro hnod
      rw [getSubstitution_no_dollar old.data x y new.data hnod]

/-- C2 witness: the amended theorem evaluated on a file containing
"hello world" with oldContent "world" and newContent "earth" (one
occurrence, no dollar pattern). -/
theorem c2_edit_unique_occurrence_witness :
    ftLookup "main.tf" c2WitnessTree = some (FTNode.file "hello world") ∧
    "world" ≠ "" ∧ occurrenceCount "hello world" "world" = 1 ∧
    ((executeEditFile c2WitnessTree
        { path := "main.tf", oldContent := "world", newContent := "earth" }).1 =
      { success := true, action := some "edited", error := none, path := "main.tf" } ∧
      ∃ b a, ("hello world").data = b ++ ("world").data ++ a ∧
        ftLookup "main.tf" (executeEditFile c2WitnessTree
          { path := "main.tf", oldContent := "world", newContent := "earth" }).2 =
          some (FTNode.file (String.mk (b ++ getSubstitution ("world").data b a ("earth").data ++ a))) ∧
        ((∀ c ∈ ("earth").data, c ≠ dollarChar) →
          String.mk (b ++ getSubstitution ("world").data b a ("earth").data ++ a) =
            String.mk (b ++ ("earth").data ++ a))) :=
  ⟨by decide, by decide, by decide,
    (c2_edit_unique_occurrence c2WitnessTree "main.tf" "world" "earth" "hello world"
      (by decide) (by decide)).2.2 (by decide)⟩

/-- C8: with empty oldContent, executeEditFile creates an absent file
with newContent (and a subsequent readFile returns exactly newContent),
appends newContent to a present file with non-empty content, and
writes newContent to a present file with empty content. -/
theorem c8_empty_old_content (tree : FileTree) (path newContent : String) :
    (existsFile path tree = false →
      executeEditFile tree { path := path, oldContent := "", newContent := newContent } =
        ({ success := true, action := some "created", error := none, path := path },
          createFile path tree newContent) ∧
      executeReadFile (createFile path tree newContent) path = ReadFileResult.content newContent) ∧
    (∀ current, ftLookup path tree = some (FTNode.file current) →
      (current ≠ "" →
        executeEditFile tree { path := path, oldContent := "", newContent := newContent } =
          ({ success := true, action := some "appended", error := none, path := path },
            updateFile path (current ++ newContent) tree)) ∧
      (current = "" →
        executeEditFile tree { path := path, oldContent := "", newContent := newContent } =
          ({ success := true, action := some "written", error := none, path := path },
            updateFile path newContent tree))) := by
  constructor
  · intro hab
    constructor
    · simp [executeEditFile, hab]
    · have hlook := ftLookup_setEntry_self path (FTNode.file newContent) tree
      simp [executeReadFile, existsFile, getFileTextOpt, createFile, hlook]
  · intro current hfile
    have hex : existsFile path tree = true := by simp [existsFile, hfile]
    have hget : getFileTextOpt path tree = some current := by simp [getFileTextOpt, hfile]
    constructor
    · intro hne
      have hpos : 0 < current.length := (string_length_pos_iff current).mpr hne
      simp [executeEditFile, hex, hget, hpos]
    · intro hemp
      subst hemp
      simp [executeEditFile, hex, hget]

/-- C8 witness: creating "new.tf" in an empty tree and reading it
back, and appending and writing on present files. -/
theorem c8_empty_old_content_witness :
    (existsFile "new.tf" ([] : FileTree) = false ∧
      executeEditFile ([] : FileTree) { path := "new.tf", oldContent := "", newContent := "v" } =
        ({ success := true, action := some "created", error := none, path := "new.tf" },
          createFile "new.tf" ([] : FileTree) "v") ∧
      executeReadFile (createFile "new.tf" ([] : FileTree) "v") "new.tf" =
        ReadFileResult.content "v") ∧
    (ftLookup "main.tf" c2Tree = some (FTNode.file "ab") ∧ "ab" ≠ "" ∧
      executeEditFile c2Tree { path := "main.tf", oldContent := "", newContent := "c" } =
        ({ success := true, action := some "appended", error := none, path := "main.tf" },
          updateFile "main.tf" ("ab" ++ "c") c2Tree)) :=
  ⟨⟨by decide,
    (c8_empty_old_content ([] : FileTree) "new.tf" "v").1 (by decide)⟩,
   ⟨by decide, by decide,
    ((c8_empty_old_content c2Tree "main.tf" "c").2 "ab" (by decide)).1 (by decide)⟩⟩

theorem editFile_result_shape (tree : FileTree) (args : EditFileArgs) :
    (executeEditFile tree args).1.path = args.path ∧
    ((executeEditFile tree args).1.success = true →
      (executeEditFile tree args).1.action.isSome = true ∧
      (executeEditFile tree args).1.error = none) ∧
    ((executeEditFile tree args).1.success = false →
      (executeEditFile tree args).1.error.isSome = true ∧
      (executeEditFile tree args).1.action = none) := by
  unfold executeEditFile
  dsimp only
  split
  · simp
  · split
    · simp
    · split
      · simp
      · split
        · simp
        · split
          · simp
          · split
            · simp
            · simp

/-- C9: executeDeleteFile fails (typed, with the path echoed) when the
path does not exist and otherwise removes it and succeeds; both
executeDeleteFile and executeEditFile always return a well-formed
result record — success with no error, or failure with an error and no
action, always carrying the requested path — and, being total Lean
functions mirroring the fully-guarded source, never throw. -/
theorem c9_delete_and_totality (tree : FileTree) (path : String) (eargs : EditFileArgs) :
    (existsFile path tree = false →
      executeDeleteFile tree path =
        ({ success := false, action := none,
           error := some ("File not found: " ++ path), path := path }, tree)) ∧
    (existsFile path tree = true →
      (executeDeleteFile tree path).1 =
        { success := true, action := none, error := none, path := path } ∧
      (executeDeleteFile tree path).2 = removeFile path tree ∧
      existsFile path (executeDeleteFile tree path).2 = false) ∧
    ((executeDeleteFile tree path).1.path = path ∧
      ((executeDeleteFile tree path).1.success = true →
        (executeDeleteFile tree path).1.error = none) ∧
      ((executeDeleteFile tree path).1.success = false →
        (executeDeleteFile tree path).1.error.isSome = true ∧
        (executeDeleteFile tree path).1.action = none)) ∧
    ((executeEditFile tree eargs).1.path = eargs.path ∧
      ((executeEditFile tree eargs).1.success = true →
        (executeEditFile tree eargs).1.action.isSome = true ∧
        (executeEditFile tree eargs).1.error = none) ∧
      ((executeEditFile tree eargs).1.success = false →
        (executeEditFile tree eargs).1.error.isSome = true ∧
        (executeEditFile tree eargs).1.action = none)) := by
  refine ⟨?_, ?_, ?_, editFile_result_shape tree eargs⟩
  · intro hab
    simp [executeDeleteFile, hab]
  · intro hex
    have hx : ¬ existsFile path tree = false := by simp [hex]
    refine ⟨by simp [executeDeleteFile, hx], by simp [executeDeleteFile, hx], ?_⟩
    have h2 : (executeDeleteFile tree path).2 = removeFile path tree := by
      simp [executeDeleteFile, hx]
    rw [h2]
    simp [existsFile, ftLookup_removeFile_self]
  · unfold executeDeleteFile
    split <;> simp

/-- C9 witness: deleting a missing path and a present path. -/
theorem c9_delete_and_totality_witness :
    (executeDeleteFile ([] : FileTree) "gone.tf" =
      ({ success := false, action := none,
         error := some ("File not found: " ++ "gone.tf"), path := "gone.tf" }, ([] : FileTree))) ∧
    ((executeDeleteFile c2Tree "main.tf").1 =
      { success := true, action := none, error := none, path := "main.tf" } ∧
     (executeDeleteFile c2Tree "main.tf").2 = removeFile "main.tf" c2Tree ∧
     existsFile "main.tf" (executeDeleteFile c2Tree "main.tf").2 = false) :=
  ⟨(c9_delete_and_totality ([] : FileTree) "gone.tf"
      { path := "x", oldContent := "", newContent := "" }).1 (by decide),
   (c9_delete_and_totality c2Tree "main.tf"
      { path := "x", oldContent := "", newContent := "" }).2.1 (by decide)⟩

/-- C7: reset from any state yields idle status, an empty message
list and a null pendingApproval, drops the in-flight abort handle and
clears the core history and the approval queue. -/
theorem c7_reset_from_any_state (s : AgentState) :
    (reset s).status = AgentStatus.idle ∧ (reset s).messages = [] ∧
    pendingApprovalView (reset s) = none ∧ (reset s).pendingApprovals = [] ∧
    (reset s).messagesRef = [] ∧ (reset s).abortRef = false := by
  simp [reset, pendingApprovalView]

/-- C5: reject on a non-empty queue never invokes a tool executor (the
ghost execution log is unchanged), leaves the external file tree
byte-identical, and appends the synthesized rejection error result as
the tool-result message for the queue head. -/
theorem c5_reject_never_executes (s : AgentState) (current : PendingToolCall)
    (remaining : List PendingToolCall) (hq : s.pendingApprovals = current :: remaining) :
    (reject s).fileTree = s.fileTree ∧
    (reject s).execLog = s.execLog ∧
    (reject s).messagesRef = s.messagesRef ++
      [ModelMessage.tool [{ toolCallId := current.toolCallId,
                            toolName := approvalToolNameStr current.toolName,
                            output := ToolOutputVal.errObj "User rejected this action." }]] := by
  have h := reject_fields s current remaining hq
  exact ⟨h.1, h.2.1, h.2.2.1⟩

/-- C5 witness: rejecting the single queued approval of a concrete
state. -/
theorem c5_reject_never_executes_witness :
    (queuedState [samplePending1]).pendingApprovals = samplePending1 :: [] ∧
    ((reject (queuedState [samplePending1])).fileTree = (queuedState [samplePending1]).fileTree ∧
     (reject (queuedState [samplePending1])).execLog = (queuedState [samplePending1]).execLog ∧
     (reject (queuedState [samplePending1])).messagesRef = (queuedState [samplePending1]).messagesRef ++
       [ModelMessage.tool [{ toolCallId := samplePending1.toolCallId,
                             toolName := approvalToolNameStr samplePending1.toolName,
                             output := ToolOutputVal.errObj "User rejected this action." }]]) :=
  ⟨by decide, c5_reject_never_executes (queuedState [samplePending1]) samplePending1 [] (by decide)⟩

/-- C10: stop changes only the status (to idle) and the abort handle;
messages, core history, queue, counter, file tree and the ghost fields
are untouched, so stopping while awaiting approval leaves the queue
and the exposed pendingApproval non-empty, and reset does clear the
queue. -/
theorem c10_stop_frame (s : AgentState) (_hs : s.status = AgentStatus.awaiting_approval)
    (hq : s.pendingApprovals ≠ []) :
    (stop s).messages = s.messages ∧ (stop s).messagesRef = s.messagesRef ∧
    (stop s).pendingApprovals = s.pendingApprovals ∧ (stop s).fileTree = s.fileTree ∧
    (stop s).messageCounter = s.messageCounter ∧ (stop s).streamStarts = s.streamStarts ∧
    (stop s).execLog = s.execLog ∧
    (stop s).status = AgentStatus.idle ∧ (stop s).abortRef = false ∧
    pendingApprovalView (stop s) = pendingApprovalView s ∧
    pendingApprovalView (stop s) ≠ none ∧
    (reset (stop s)).pendingApprovals = [] := by
  refine ⟨rfl, rfl, rfl, rfl, rfl, rfl, rfl, rfl, rfl, rfl, ?_, rfl⟩
  simp only [pendingApprovalView, stop]
  intro hnone
  exact hq (List.head?_eq_none_iff.mp hnone)

/-- C10 witness: stopping a concrete awaiting state with one queued
approval. -/
theorem c10_stop_frame_witness :
    (queuedState [samplePending1]).status = AgentStatus.awaiting_approval ∧
    (queuedState [samplePending1]).pendingApprovals ≠ [] ∧
    ((stop (queuedState [samplePending1])).pendingApprovals =
      (queuedState [samplePending1]).pendingApprovals ∧
     (stop (queuedState [samplePending1])).status = AgentStatus.idle ∧
     pendingApprovalView (stop (queuedState [samplePending1])) ≠ none ∧
     (reset (stop (queuedState [samplePending1]))).pendingApprovals = []) :=
  ⟨by decide, by decide,
    (fun h => ⟨h.2.2.1, h.2.2.2.2.2.2.2.1, h.2.2.2.2.2.2.2.2.2.2.1, h.2.2.2.2.2.2.2.2.2.2.2⟩)
      (c10_stop_frame (queuedState [samplePending1]) (by decide) (by decide))⟩

/-- C6: stop during streaming (followed by the cancelled stream
observing the abort) yields idle without reconciling anything into the
model-facing history or the displayed messages, and a subsequent send
starts a clean new turn from exactly the prior history. -/
theorem c6_stop_cancels_cleanly (s : AgentState) (_hs : s.status = AgentStatus.streaming)
    (t : String) (ht : ¬ jsTrim t = "") :
    (observeAbort (stop s)).status = AgentStatus.idle ∧
    (observeAbort (stop s)).messagesRef = s.messagesRef ∧
    (observeAbort (stop s)).messages = s.messages ∧
    (send t (observeAbort (stop s))).status = AgentStatus.streaming ∧
    (send t (observeAbort (stop s))).streamStarts = s.streamStarts + 1 ∧
    (send t (observeAbort (stop s))).messagesRef = s.messagesRef ++ [ModelMessage.user (jsTrim t)] := by
  refine ⟨rfl, rfl, rfl, ?_, ?_, ?_⟩
  all_goals simp [send, observeAbort, stop, startStream, ht]

/-- C6 witness: stopping the concrete streaming state and sending a
fresh message afterwards. -/
theorem c6_stop_cancels_cleanly_witness :
    streamingState.status = AgentStatus.streaming ∧ ¬ jsTrim "go" = "" ∧
    ((observeAbort (stop streamingState)).status = AgentStatus.idle ∧
     (observeAbort (stop streamingState)).messagesRef = streamingState.messagesRef ∧
     (observeAbort (stop streamingState)).messages = streamingState.messages ∧
     (send "go" (observeAbort (stop streamingState))).status = AgentStatus.streaming ∧
     (send "go" (observeAbort (stop streamingState))).streamStarts = streamingState.streamStarts + 1 ∧
     (send "go" (observeAbort (stop streamingState))).messagesRef =
       streamingState.messagesRef ++ [ModelMessage.user (jsTrim "go")]) :=
  ⟨by decide, by decide, c6_stop_cancels_cleanly streamingState (by decide) "go" (by decide)⟩

/-- C4 counterexample: the claim extends the send guard to every
non-idle status, but the source only rejects send during streaming and
awaiting_approval; from the error status (no live abort handle) send
is accepted, mutates the state and starts a new stream turn. -/
theorem c4_counterexample :
    errorState.status ≠ AgentStatus.idle ∧
    send "hello" errorState ≠ errorState ∧
    (send "hello" errorState).status = AgentStatus.streaming ∧
    (send "hello" errorState).streamStarts = errorState.streamStarts + 1 := by
  decide

/-- C4 (amended): send is a no-op while status is streaming or
awaiting_approval, leaving the whole state (history, queue, status)
unchanged and starting no turn; from the error status with no live
abort handle and non-blank text, send is accepted exactly as from
idle: it appends the user message and starts a new stream turn. -/
theorem c4_send_gating (s : AgentState) (t : String) :
    ((s.status = AgentStatus.streaming ∨ s.status = AgentStatus.awaiting_approval) →
      send t s = s) ∧
    (s.status = AgentStatus.error → s.abortRef = false → ¬ jsTrim t = "" →
      (send t s).status = AgentStatus.streaming ∧
      (send t s).streamStarts = s.streamStarts + 1 ∧
      (send t s).messagesRef = s.messagesRef ++ [ModelMessage.user (jsTrim t)]) := by
  constructor
  · intro h
    unfold send
    rw [if_pos h]
  · intro herr hab ht
    have hns : ¬ (s.status = AgentStatus.streaming ∨ s.status = AgentStatus.awaiting_approval) := by
      simp [herr]
    simp [send, hns, hab, ht, startStream]

/-- C4 witness: the no-op branch on the concrete streaming state and
the accepted branch on the concrete error state. -/
theorem c4_send_gating_witness :
    (streamingState.status = AgentStatus.streaming ∨
      streamingState.status = AgentStatus.awaiting_approval) ∧
    send "hello" streamingState = streamingState ∧
    errorState.status = AgentStatus.error ∧ errorState.abortRef = false ∧ ¬ jsTrim "hi" = "" ∧
    ((send "hi" errorState).status = AgentStatus.streaming ∧
     (send "hi" errorState).streamStarts = errorState.streamStarts + 1 ∧
     (send "hi" errorState).messagesRef = errorState.messagesRef ++ [ModelMessage.user (jsTrim "hi")]) :=
  ⟨Or.inl (by decide),
   (c4_send_gating streamingState "hello").1 (Or.inl (by decide)),
   by decide, by decide, by decide,
   (c4_send_gating errorState "hi").2 (by decide) (by decide) (by decide)⟩

/-- C3: approve re-validates the head arguments before executing; when
the validation fails it appends the typed failure result as the tool
result while never invoking an executor (ghost log and file tree are
unchanged), and when it succeeds the executor is invoked synchronously
(the ghost log records the call). -/
theorem c3_approve_revalidates (s : AgentState) (current : PendingToolCall)
    (remaining : List PendingToolCall) (hq : s.pendingApprovals = current :: remaining) :
    (validApprovalArgs current = false →
      (approve s).fileTree = s.fileTree ∧
      (approve s).execLog = s.execLog ∧
      (invalidArgsResult current).success = false ∧
      (invalidArgsResult current).error.isSome = true ∧
      (approve s).messagesRef = s.messagesRef ++
        [ModelMessage.tool [{ toolCallId := current.toolCallId,
                              toolName := approvalToolNameStr current.toolName,
                              output := ToolOutputVal.exec (invalidArgsResult current) }]]) ∧
    (validApprovalArgs current = true →
      (approve s).execLog = s.execLog ++ [current.toolCallId]) := by
  have hf := approve_fields s current remaining hq
  constructor
  · intro hinv
    have hh := approveHead_of_invalid current s.fileTree hinv
    refine ⟨?_, ?_, ?_, ?_, ?_⟩
    · rw [hf.1, hh]
    · rw [hf.2.1, hh]
      simp
    · cases hcn : current.toolName <;> simp [invalidArgsResult, hcn]
    · cases hcn : current.toolName <;> simp [invalidArgsResult, hcn]
    · rw [hf.2.2.1, hh]
  · intro hval
    obtain ⟨r, t2, hh⟩ := approveHead_of_valid current s.fileTree hval
    rw [hf.2.1, hh]
    simp

/-- C3 witness: approving a queued editFile call with a non-string
path produces the typed failure without executing, and approving one
with valid string arguments invokes the executor. -/
theorem c3_approve_revalidates_witness :
    (queuedState [invalidPending]).pendingApprovals = invalidPending :: [] ∧
    validApprovalArgs invalidPending = false ∧
    ((approve (queuedState [invalidPending])).fileTree = (queuedState [invalidPending]).fileTree ∧
     (approve (queuedState [invalidPending])).execLog = (queuedState [invalidPending]).execLog ∧
     (invalidArgsResult invalidPending).success = false ∧
     (invalidArgsResult invalidPending).error.isSome = true ∧
     (approve (queuedState [invalidPending])).messagesRef = (queuedState [invalidPending]).messagesRef ++
       [ModelMessage.tool [{ toolCallId := invalidPending.toolCallId,
                             toolName := approvalToolNameStr invalidPending.toolName,
                             output := ToolOutputVal.exec (invalidArgsResult invalidPending) }]]) ∧
    validApprovalArgs samplePending1 = true ∧
    (approve (queuedState [samplePending1])).execLog =
      (queuedState [samplePending1]).execLog ++ [samplePending1.toolCallId] :=
  ⟨by decide, by decide,
   (c3_approve_revalidates (queuedState [invalidPending]) invalidPending [] (by decide)).1 (by decide),
   by decide,
   (c3_approve_revalidates (queuedState [samplePending1]) samplePending1 [] (by decide)).2 (by decide)⟩

theorem filterMap_map_sublist {α β γ : Type} (l : List α) (f : α → Option β) (g : β → γ)
    (h : α → γ) (hfg : ∀ a b, f a = some b → g b = h a) :
    List.Sublist ((l.filterMap f).map g) (l.map h) := by
  induction l with
  | nil => simp
  | cons a rest ih =>
    cases hfa : f a with
    | none =>
      simp only [List.filterMap_cons, hfa, List.map_cons]
      exact List.Sublist.cons (h a) ih
    | some b =>
      simp only [List.filterMap_cons, hfa, List.map_cons]
      rw [hfg a b hfa]
      exact List.Sublist.cons₂ (h a) ih

theorem getPendingToolCalls_sublist (steps : List StepResult) (lastStep : StepResult)
    (hlast : steps.getLast? = some lastStep) :
    List.Sublist ((getPendingToolCalls steps).map (fun p => p.toolCallId))
      (lastStep.toolCalls.map (fun tc => tc.toolCallId)) := by
  unfold getPendingToolCalls
  rw [hlast]
  apply filterMap_map_sublist
  intro a b hb
  by_cases hc : (lastStep.toolResults.map (fun r => r.toolCallId)).contains a.toolCallId
  · rw [if_pos hc] at hb
    simp at hb
  · rw [if_neg hc] at hb
    cases hp : parseApprovalName a.toolName with
    | none => rw [hp] at hb; simp at hb
    | some n =>
      rw [hp] at hb
      simp only [Option.some.injEq] at hb
      rw [← hb]

theorem getPendingToolCalls_complete (steps : List StepResult) (lastStep : StepResult)
    (hlast : steps.getLast? = some lastStep) :
    ∀ tc ∈ lastStep.toolCalls,
      (lastStep.toolResults.map (fun r => r.toolCallId)).contains tc.toolCallId = false →
      ∀ n, parseApprovalName tc.toolName = some n →
      ({ toolCallId := tc.toolCallId, toolName := n, args := tc.input } : PendingToolCall) ∈
        getPendingToolCalls steps := by
  intro tc htc hres n hn
  unfold getPendingToolCalls
  rw [hlast]
  apply List.mem_filterMap.mpr
  refine ⟨tc, htc, ?_⟩
  rw [if_neg (by rw [hres]; simp), hn]

/-- C1: when the final step of a turn holds several result-lacking
approval-required tool calls, getPendingToolCalls queues all of them
(sublist: the order is the emission order; completeness: none is
dropped); after the turn settles with exactly two of them queued and
valid arguments, the first approve executes the first call only (the
queue stays non-empty, the ghost stream counter is untouched and the
status remains awaiting_approval) and the second approve executes the
second call, empties the queue and resumes the stream exactly once,
with the two tool results appended to the core history in emission
order. -/
theorem c1_parallel_approvals (steps : List StepResult) (s0 : AgentState)
    (p1 p2 : PendingToolCall) (lastStep : StepResult)
    (hlast : steps.getLast? = some lastStep)
    (hpend : getPendingToolCalls steps = [p1, p2])
    (hv1 : validApprovalArgs p1 = true) (hv2 : validApprovalArgs p2 = true) :
    List.Sublist ((getPendingToolCalls steps).map (fun p => p.toolCallId))
      (lastStep.toolCalls.map (fun tc => tc.toolCallId)) ∧
    (∀ tc ∈ lastStep.toolCalls,
      (lastStep.toolResults.map (fun r => r.toolCallId)).contains tc.toolCallId = false →
      (tc.toolName = "editFile" ∨ tc.toolName = "deleteFile") →
      ∃ n, parseApprovalName tc.toolName = some n ∧
        ({ toolCallId := tc.toolCallId, toolName := n, args := tc.input } : PendingToolCall) ∈
          getPendingToolCalls steps) ∧
    ((finishStream steps s0).pendingApprovals = [p1, p2] ∧
     (finishStream steps s0).status = AgentStatus.awaiting_approval ∧
     (approve (finishStream steps s0)).pendingApprovals = [p2] ∧
     (approve (finishStream steps s0)).pendingApprovals ≠ [] ∧
     (approve (finishStream steps s0)).streamStarts = (finishStream steps s0).streamStarts ∧
     (approve (finishStream steps s0)).status = AgentStatus.awaiting_approval ∧
     (approve (finishStream steps s0)).execLog =
       (finishStream steps s0).execLog ++ [p1.toolCallId] ∧
     (approve (approve (finishStream steps s0))).pendingApprovals = [] ∧
     (approve (approve (finishStream steps s0))).execLog =
       (finishStream steps s0).execLog ++ [p1.toolCallId, p2.toolCallId] ∧
     (approve (approve (finishStream steps s0))).streamStarts =
       (finishStream steps s0).streamStarts + 1 ∧
     (approve (approve (finishStream steps s0))).status = AgentStatus.streaming ∧
     ∃ r1 r2,
       (approve (approve (finishStream steps s0))).messagesRef =
         (finishStream steps s0).messagesRef ++
           [ModelMessage.tool [{ toolCallId := p1.toolCallId,
                                 toolName := approvalToolNameStr p1.toolName,
                                 output := ToolOutputVal.exec r1 }],
            ModelMessage.tool [{ toolCallId := p2.toolCallId,
                                 toolName := approvalToolNameStr p2.toolName,
                                 output := ToolOutputVal.exec r2 }]]) := by
  refine ⟨getPendingToolCalls_sublist steps lastStep hlast, ?_, ?_⟩
  · intro tc htc hres hname
    have hn : ∃ n, parseApprovalName tc.toolName = some n := by
      cases hname with
      | inl h => exact ⟨ApprovalToolName.editFile, by simp [parseApprovalName, h]⟩
      | inr h =>
        by_cases he : tc.toolName = "editFile"
        · exact ⟨ApprovalToolName.editFile, by simp [parseApprovalName, he]⟩
        · exact ⟨ApprovalToolName.deleteFile, by simp [parseApprovalName, he, h]⟩
    obtain ⟨n, hn⟩ := hn
    exact ⟨n, hn, getPendingToolCalls_complete steps lastStep hlast tc htc hres n hn⟩
  · have hfin := finishStream_fields steps s0
    have hq1 : (finishStream steps s0).pendingApprovals = p1 :: [p2] := by
      rw [hfin.1, hpend]
    have hst1 : (finishStream steps s0).status = AgentStatus.awaiting_approval := by
      rw [hfin.2.2.1, hpend]
      simp
    have haf1 := approve_fields (finishStream steps s0) p1 [p2] hq1
    obtain ⟨r1, t1, hh1⟩ := approveHead_of_valid p1 (finishStream steps s0).fileTree hv1
    have hq2 : (approve (finishStream steps s0)).pendingApprovals = p2 :: [] := by
      rw [haf1.2.2.2.1]
      simp
    have haf2 := approve_fields (approve (finishStream steps s0)) p2 [] hq2
    obtain ⟨r2, t2, hh2⟩ :=
      approveHead_of_valid p2 (approve (finishStream steps s0)).fileTree hv2
    refine ⟨hq1, hst1, by rw [haf1.2.2.2.1]; simp, by rw [haf1.2.2.2.1]; simp,
      by rw [haf1.2.2.2.2.1]; simp, ?_, ?_, ?_, ?_, ?_, ?_, ?_⟩
    · rw [haf1.2.2.2.2.2.1]
      simp [hst1]
    · rw [haf1.2.1, hh1]
      simp
    · rw [haf2.2.2.2.1]
      simp
    · rw [haf2.2.1, hh2]
      simp only [if_true]
      rw [haf1.2.1, hh1]
      simp
    · rw [haf2.2.2.2.2.1]
      simp only [if_pos rfl]
      rw [haf1.2.2.2.2.1]
      simp
    · rw [haf2.2.2.2.2.2.1]
      simp
    · refine ⟨r1, r2, ?_⟩
      have hm2 := haf2.2.2.1
      rw [hh2] at hm2
      have hm1 := haf1.2.2.1
      rw [hh1] at hm1
      rw [hm2, hm1]
      simp

/-- C1 witness: a concrete step carrying two parallel editFile calls
with no results, settled into the queue and approved twice. -/
theorem c1_parallel_approvals_witness :
    ([sampleStep].getLast? = some sampleStep ∧
     getPendingToolCalls [sampleStep] = [samplePending1, samplePending2] ∧
     validApprovalArgs samplePending1 = true ∧
     validApprovalArgs samplePending2 = true) ∧
    (finishStream [sampleStep] initialAgentState).pendingApprovals =
      [samplePending1, samplePending2] ∧
    (approve (finishStream [sampleStep] initialAgentState)).pendingApprovals =
      [samplePending2] ∧
    (approve (approve (finishStream [sampleStep] initialAgentState))).pendingApprovals = [] ∧
    (approve (approve (finishStream [sampleStep] initialAgentState))).streamStarts =
      (finishStream [sampleStep] initialAgentState).streamStarts + 1 ∧
    (approve (approve (finishStream [sampleStep] initialAgentState))).status =
      AgentStatus.streaming := by
  have h := c1_parallel_approvals [sampleStep] initialAgentState samplePending1 samplePending2
    sampleStep (by decide) (by decide) (by decide) (by decide)
  obtain ⟨-, -, hq1, -, hq2, -, -, -, -, hq3, -, hss3, hst3, -⟩ := h
  exact ⟨⟨by decide, by decide, by decide, by decide⟩, hq1, hq2, hq3, hss3, hst3⟩

end Coder
